import Mathlib

/-!
Verification of the pixel pipeline of `napari_sperm_measure` (file
`src/napari_sperm_measure/measurement.py` and the mask-editing handlers of
`widget.py`) against its natural-language specification.

Images are embedded as `Grid`: a pair of dimensions together with a total
pixel function; all array reads and writes of the Python source happen at
in-bounds coordinates, so the values of the pixel function outside the
`rows × cols` domain are irrelevant (theorems quantify over the domain).
OpenCV primitives (`cv2.threshold`, `cv2.floodFill`, `cv2.circle`,
`cv2.adaptiveThreshold`, `cv2.GaussianBlur`, `cv2.morphologyEx`) have no
source in this repository; each is given an explicit executable model whose
doc comment records the modelling choice.
-/

namespace NapariSpermMeasure

/-- A 2D image array: dimensions plus a total pixel function (row, column
order, matching `image[x][y]` in the source). -/
structure Grid where
  rows : Nat
  cols : Nat
  pix : Nat → Nat → Nat

/-- Pointwise value map, preserving dimensions (models numpy elementwise
operations such as `image // 255` and `image * 255`). -/
def Grid.map (g : Grid) (f : Nat → Nat) : Grid :=
  ⟨g.rows, g.cols, fun x y => f (g.pix x y)⟩

/-- Models `np.zeros(image.shape)` / `np.zeros_like(image)`. -/
def zerosLike (g : Grid) : Grid :=
  ⟨g.rows, g.cols, fun _ _ => 0⟩

/-- Write a single pixel (models `image[x][y] = v`). -/
def Grid.setPix (g : Grid) (x y v : Nat) : Grid :=
  ⟨g.rows, g.cols, fun a b => if a = x ∧ b = y then v else g.pix a b⟩

/-- Models `np.array_equal`: same shape and same pixel values on the domain. -/
def arrayEqual (a b : Grid) : Prop :=
  a.rows = b.rows ∧ a.cols = b.cols ∧
    ∀ x, x < a.rows → ∀ y, y < a.cols → a.pix x y = b.pix x y

instance (a b : Grid) : Decidable (arrayEqual a b) := by
  unfold arrayEqual; infer_instance

/-- Models `np.count_nonzero`: the number of nonzero (foreground) pixels. -/
def fgCount (g : Grid) : Nat :=
  ∑ p ∈ Finset.range g.rows ×ˢ Finset.range g.cols,
    if g.pix p.1 p.2 ≠ 0 then 1 else 0

/-- The 8-neighbours of `(x, y)` in the source's clockwise order
`P2 … P9` (`neighbors` in `measurement.py`); only called at interior
pixels, where every index is in bounds. -/
def neighbors (x y : Nat) (g : Grid) : List Nat :=
  [g.pix (x-1) y, g.pix (x-1) (y+1), g.pix x (y+1), g.pix (x+1) (y+1),
   g.pix (x+1) y, g.pix (x+1) (y-1), g.pix x (y-1), g.pix (x-1) (y-1)]

/-- Number of `(0, 1)` transitions in the cyclic neighbour sequence
(`transitions` in `measurement.py`: the list is extended by its first
element and consecutive pairs are scanned). -/
def transitions (P : List Nat) : Nat :=
  let n := P ++ P.take 1
  (n.zip n.tail).countP fun q => q.1 == 0 && q.2 == 1

/-- The deletion test of the first Zhang–Suen subiteration at `(x, y)`:
foreground, `2 ≤ ΣP ≤ 6`, one cyclic transition, and the two neighbour
products `P2·P4·P6` and `P4·P6·P8` vanish (conditions 1–4 in
`first_subiteration`). -/
def isCandidateFirst (g : Grid) (x y : Nat) : Bool :=
  g.pix x y == 1 &&
  decide (2 ≤ (neighbors x y g).sum) && decide ((neighbors x y g).sum ≤ 6) &&
  transitions (neighbors x y g) == 1 &&
  g.pix (x-1) y * g.pix x (y+1) * g.pix (x+1) y == 0 &&
  g.pix x (y+1) * g.pix (x+1) y * g.pix x (y-1) == 0

/-- The deletion test of the second Zhang–Suen subiteration: same count and
transition conditions, products `P2·P4·P8` and `P2·P6·P8` (conditions 1–4
in `second_subiteration`). -/
def isCandidateSecond (g : Grid) (x y : Nat) : Bool :=
  g.pix x y == 1 &&
  decide (2 ≤ (neighbors x y g).sum) && decide ((neighbors x y g).sum ≤ 6) &&
  transitions (neighbors x y g) == 1 &&
  g.pix (x-1) y * g.pix x (y+1) * g.pix x (y-1) == 0 &&
  g.pix (x-1) y * g.pix (x+1) y * g.pix x (y-1) == 0

/-- The scan of `first_subiteration`: all interior coordinates
(`range(1, rows-1) × range(1, cols-1)`) whose pixel passes the deletion
test, collected from the current image before any deletion. -/
def deletionCandidatesFirst (g : Grid) : List (Nat × Nat) :=
  (List.range' 1 (g.rows - 2)).flatMap fun x =>
    (List.range' 1 (g.cols - 2)).filterMap fun y =>
      if isCandidateFirst g x y then some (x, y) else none

/-- The scan of `second_subiteration`. -/
def deletionCandidatesSecond (g : Grid) : List (Nat × Nat) :=
  (List.range' 1 (g.rows - 2)).flatMap fun x =>
    (List.range' 1 (g.cols - 2)).filterMap fun y =>
      if isCandidateSecond g x y then some (x, y) else none

/-- Bulk deletion phase: `for x, y in deletion_candidates: image[x][y] = 0`. -/
def deleteAll (g : Grid) (cs : List (Nat × Nat)) : Grid :=
  cs.foldl (fun h c => h.setPix c.1 c.2 0) g

/-- `first_subiteration`: scan the current image for candidates, then
delete them all. -/
def firstSubiteration (g : Grid) : Grid :=
  deleteAll g (deletionCandidatesFirst g)

/-- `second_subiteration`. -/
def secondSubiteration (g : Grid) : Grid :=
  deleteAll g (deletionCandidatesSecond g)

/-- One full thinning pass: first subiteration then second. -/
def onePass (g : Grid) : Grid :=
  secondSubiteration (firstSubiteration g)

/-- The `while True` loop of `morphological_thinning`, with explicit fuel:
run a pass, stop when the result equals the previous pass's result
(`np.array_equal(image, prev)`), else continue with `prev = image.copy()`.
`none` means the fuel ran out; `fgCount g + 2` is always sufficient fuel
(see `thinLoop_isSome_of_lt`). -/
def thinLoop : Nat → Grid → Grid → Option Grid
  | 0, _, _ => none
  | fuel+1, prev, g =>
    let g2 := onePass g
    if arrayEqual g2 prev then some g2 else thinLoop fuel g2 g2

/-- `morphological_thinning`: normalise by `// 255`, iterate passes to the
fixed point, rescale by `* 255`. The `none` branch is unreachable because
the chosen fuel suffices. -/
def morphologicalThinning (img : Grid) : Grid :=
  match thinLoop (fgCount (img.map fun v => v / 255) + 2)
      (zerosLike (img.map fun v => v / 255)) (img.map fun v => v / 255) with
  | some r => r.map (fun v => v * 255)
  | none => zerosLike (img.map fun v => v / 255)

/-- `measure_cell`: skeletonise, then divide the foreground count by the
hard-coded calibration constant 3.06 (pixels per micrometre). -/
def measureCell (mask : Grid) : Grid × ℚ :=
  let skeleton := morphologicalThinning mask
  (skeleton, (fgCount skeleton : ℚ) / (3.06 : ℚ))

/-- Modelled from the spec: `measure(skeleton, calibrationFactor) = number
of foreground pixels in skeleton / calibrationFactor`, the contract of the
LengthEstimator with an explicit calibration parameter. Stated only to be
compared against `measureCell`, whose calibration is hard-coded. -/
def measureSpec (skeleton : Grid) (calibrationFactor : ℚ) : ℚ :=
  (fgCount skeleton : ℚ) / calibrationFactor

/-- Models `cv2.threshold(image, 127, 255, cv2.THRESH_BINARY)`: pixels
strictly above 127 become 255, the rest 0. -/
def binarize (g : Grid) : Grid :=
  g.map fun v => if 127 < v then 255 else 0

/-- The 4-adjacency relation on pixel coordinates. -/
def fourAdj (p q : Nat × Nat) : Prop :=
  (p.1 = q.1 ∧ (q.2 = p.2 + 1 ∨ p.2 = q.2 + 1)) ∨
  (p.2 = q.2 ∧ (q.1 = p.1 + 1 ∨ p.1 = q.1 + 1))

/-- One flood-fill step on the binarized mask `b`: move to a 4-adjacent,
in-bounds, foreground pixel. -/
def fgStep (b : Grid) (p q : Nat × Nat) : Prop :=
  fourAdj p q ∧ q.1 < b.rows ∧ q.2 < b.cols ∧ b.pix q.1 q.2 = 255

/-- `reach b s q`: `q` lies in the 4-connected foreground region grown from
`s` — the specification-level description of what `cv2.floodFill` fills. -/
def reach (b : Grid) (s q : Nat × Nat) : Prop :=
  Relation.ReflTransGen (fgStep b) s q

/-- The (up to four) 4-adjacent coordinates of `p`. -/
def nbrCoords (p : Nat × Nat) : List (Nat × Nat) :=
  [(p.1 + 1, p.2), (p.1, p.2 + 1)]
    ++ (if 0 < p.1 then [(p.1 - 1, p.2)] else [])
    ++ (if 0 < p.2 then [(p.1, p.2 - 1)] else [])

/-- The in-bounds foreground 4-neighbours of `p` in the binarized mask. -/
def fgNbrs (b : Grid) (p : Nat × Nat) : Finset (Nat × Nat) :=
  ((nbrCoords p).filter fun q =>
    decide (q.1 < b.rows) && decide (q.2 < b.cols) && (b.pix q.1 q.2 == 255)).toFinset

/-- One breadth-first expansion of a set of filled pixels. -/
def expand (b : Grid) (s : Finset (Nat × Nat)) : Finset (Nat × Nat) :=
  s ∪ s.biUnion (fgNbrs b)

/-- Models `cv2.floodFill` (default 4-connectivity, zero tolerance) on the
binarized mask: the set of pixels filled from `seed`, computed by iterating
the breadth-first expansion to saturation (`rows * cols` rounds always
saturate, see `expand_floodSet`). -/
def floodSet (b : Grid) (seed : Nat × Nat) : Finset (Nat × Nat) :=
  (expand b)^[b.rows * b.cols] {seed}

/-- The mask extracted after the flood fill (`cell_mask[flood_filled ==
new_val] = 255`): 255 exactly on the filled region. -/
def regionFromSeed (b : Grid) (p : Nat × Nat) : Grid :=
  ⟨b.rows, b.cols, fun x y => if (x, y) ∈ floodSet b p then 255 else 0⟩

/-- `trace_cell`: binarize; if the seed pixel is not 255, print the
seed-not-on-a-cell message (returned here as the Bool flag) and return an
all-zero mask; otherwise flood-fill from the seed and return the filled
region as a 0/255 mask. -/
def traceCell (image : Grid) (p : Nat × Nat) : Grid × Bool :=
  let binary := binarize image
  if binary.pix p.1 p.2 ≠ 255 then (zerosLike binary, true)
  else (regionFromSeed binary p, false)

/-- The grow action of `SpermMeasureWidget._on_click` (tracing mode):
`accumulated_mask = np.maximum(accumulated_mask, cell_body)` with
`cell_body = trace_cell(image, (y, x))`. -/
def growMask (source acc : Grid) (p : Nat × Nat) : Grid :=
  ⟨acc.rows, acc.cols, fun x y =>
    max (acc.pix x y) ((traceCell source p).1.pix x y)⟩

/-- Modelled from the spec: the erase action of
`SpermMeasureWidget._on_click` calls `cv2.circle(accumulated_mask, (x, y),
erase_radius, 0, -1)`, whose OpenCV rasterisation is modelled as clearing
exactly the pixels within Euclidean distance `radius` of the centre. -/
def eraseDisk (acc : Grid) (p : Nat × Nat) (r : Nat) : Grid :=
  ⟨acc.rows, acc.cols, fun x y =>
    if ((x : ℤ) - p.1) ^ 2 + ((y : ℤ) - p.2) ^ 2 ≤ (r : ℤ) ^ 2 then 0
    else acc.pix x y⟩

/-- All pixel values of a grid, row-major. -/
def pixList (g : Grid) : List Nat :=
  (List.range g.rows).flatMap fun x => (List.range g.cols).map fun y => g.pix x y

/-- Minimum of a list of pixel values (empty list gives 0). -/
def listMin : List Nat → Nat
  | [] => 0
  | v :: vs => vs.foldl Nat.min v

/-- Maximum of a list of pixel values (empty list gives 0). -/
def listMax : List Nat → Nat
  | [] => 0
  | v :: vs => vs.foldl Nat.max v

/-- Models `cv2.normalize(image, None, 0, 255, cv2.NORM_MINMAX)`: affine
rescale of the intensity range to `[0, 255]` (all-equal images map to 0);
only its shape preservation matters downstream. -/
def normalizeMinMax (g : Grid) : Grid :=
  let mn := listMin (pixList g)
  let mx := listMax (pixList g)
  g.map fun v => if mx = mn then 0 else (v - mn) * 255 / (mx - mn)

/-- Binomial weights of the 5-tap Gaussian kernel used by
`cv2.GaussianBlur(image, (5, 5), 0)`. -/
def gaussW (i : Nat) : Nat :=
  if i = 0 ∨ i = 4 then 1 else if i = 1 ∨ i = 3 then 4 else 6

/-- Models `cv2.GaussianBlur(image, (5, 5), 0)`: separable 5×5 binomial
weighted mean; out-of-bounds taps are dropped and the weight sum is
renormalised (border handling abbreviated — only shape preservation
matters downstream). -/
def gaussianBlur5 (g : Grid) : Grid :=
  ⟨g.rows, g.cols, fun x y =>
    let taps := (List.range 5).flatMap fun i => (List.range 5).filterMap fun j =>
      if 2 ≤ x + i ∧ 2 ≤ y + j ∧ x + i - 2 < g.rows ∧ y + j - 2 < g.cols
      then some (gaussW i * gaussW j, g.pix (x + i - 2) (y + j - 2)) else none
    (taps.foldl (fun s t => s + t.1 * t.2) 0) / (taps.foldl (fun s t => s + t.1) 0)⟩

/-- Models `cv2.adaptiveThreshold(blurred, 255,
ADAPTIVE_THRESH_GAUSSIAN_C, THRESH_BINARY, blockSize, C)`: per pixel,
compare against the local `blockSize × blockSize` window mean minus `C`
(the Gaussian weighting of the window is abbreviated to a plain mean —
only the two-valued output and the shape matter downstream). OpenCV
asserts `blockSize` odd and `> 1`; violating it raises, modelled as
`none`. -/
def adaptiveThreshold (src : Grid) (maxValue blockSize : Nat) (c : ℤ) : Option Grid :=
  if blockSize % 2 = 1 ∧ 1 < blockSize then
    some ⟨src.rows, src.cols, fun x y =>
      let h := blockSize / 2
      let taps := (List.range blockSize).flatMap fun i =>
        (List.range blockSize).filterMap fun j =>
          if h ≤ x + i ∧ h ≤ y + j ∧ x + i - h < src.rows ∧ y + j - h < src.cols
          then some (src.pix (x + i - h) (y + j - h)) else none
      let mean : ℤ := (taps.foldl (· + ·) 0 : Nat) / taps.length
      if mean - c < (src.pix x y : ℤ) then maxValue else 0⟩
  else none

/-- The in-bounds pixel values of the `k × k` window anchored at the
centre around `(x, y)`. -/
def windowTaps (g : Grid) (k x y : Nat) : List Nat :=
  (List.range k).flatMap fun i => (List.range k).filterMap fun j =>
    if k / 2 ≤ x + i ∧ k / 2 ≤ y + j ∧
       x + i - k / 2 < g.rows ∧ y + j - k / 2 < g.cols
    then some (g.pix (x + i - k / 2) (y + j - k / 2)) else none

/-- Models `cv2.dilate` with an all-ones `k × k` kernel (anchor at the
centre): maximum over the in-bounds window, out-of-bounds taps acting as
0 (the OpenCV constant border for dilation). -/
def dilateK (k : Nat) (g : Grid) : Grid :=
  ⟨g.rows, g.cols, fun x y => (windowTaps g k x y).foldl Nat.max 0⟩

/-- Models `cv2.erode` with an all-ones `k × k` kernel: minimum over the
in-bounds window, out-of-bounds taps acting as 255 (the OpenCV constant
border for erosion on 8-bit images). -/
def erodeK (k : Nat) (g : Grid) : Grid :=
  ⟨g.rows, g.cols, fun x y => (windowTaps g k x y).foldl Nat.min 255⟩

/-- Models `cv2.morphologyEx(image, cv2.MORPH_CLOSE, kernel)`: dilation
followed by erosion with the same kernel. -/
def morphClose (k : Nat) (g : Grid) : Grid :=
  erodeK k (dilateK k g)

/-- `initial_preprocessing` (2D grayscale input; the RGB branch only drops
the channel axis): normalise, blur, adaptively threshold, then close
`iterations` times. `none` models the two unchecked Python failures: the
OpenCV assertion on an even or undersized `block_size`, and the `NameError`
on `closing` when `iterations` is not positive (`range(iterations)` runs
zero times and `closing` is never assigned). No parameter is validated or
corrected before this. -/
def initialPreprocessing (image : Grid) (iterations kernelSize blockSize : Nat)
    (cValue : ℤ) : Option Grid :=
  match adaptiveThreshold (gaussianBlur5 (normalizeMinMax image)) 255
      blockSize cValue with
  | none => none
  | some thresh =>
    if iterations = 0 then none
    else some ((morphClose kernelSize)^[iterations] thresh)

/-- The only parameter handling in the repository: the widget slider
handler `_update_preprocessing_for_slider` bumps an even `block_size` or
`kernel_size` to the next odd value before calling
`initial_preprocessing`; nothing is reported to the caller. -/
def sliderOddCorrect (value : Nat) : Nat :=
  if value % 2 = 0 then value + 1 else value

/-- Concrete 3×3 binary mask used to exercise the subiteration rule: a
2×2 foreground block in the lower-left corner. -/
def maskC1 : Grid :=
  ⟨3, 3, fun x y => if (x = 1 ∨ x = 2) ∧ (y = 0 ∨ y = 1) then 1 else 0⟩

/-- Concrete 3×3 mask with a single centred 255 pixel (a thinning fixed
point). -/
def skel3 : Grid :=
  ⟨3, 3, fun x y => if x = 1 ∧ y = 1 then 255 else 0⟩

/-- Concrete 1×3 source image, fully foreground after binarization. -/
def srcRow : Grid := ⟨1, 3, fun _ _ => 200⟩

/-- Concrete 1×3 all-background accumulated mask. -/
def accRow : Grid := ⟨1, 3, fun _ _ => 0⟩

/-- Concrete 1×1 all-background source image. -/
def srcBg : Grid := ⟨1, 1, fun _ _ => 0⟩

/-- Concrete 3×3 fully-foreground accumulated mask. -/
def accFull : Grid := ⟨3, 3, fun _ _ => 255⟩

/-- Concrete 2×2 test image for the preprocessing stage. -/
def imTest : Grid := ⟨2, 2, fun x y => 10 * x + y⟩

/-- Concrete 2×2 all-background mask. -/
def zeros2 : Grid := ⟨2, 2, fun _ _ => 0⟩

/-- Concrete 2×2 mask whose nonzero values are strictly below 255. -/
def gray2 : Grid := ⟨2, 2, fun _ _ => 128⟩

theorem deleteAll_rows (cs : List (Nat × Nat)) (g : Grid) :
    (deleteAll g cs).rows = g.rows := by
  induction cs generalizing g with
  | nil => rfl
  | cons c cs ih => exact (ih (g.setPix c.1 c.2 0)).trans rfl

theorem deleteAll_cols (cs : List (Nat × Nat)) (g : Grid) :
    (deleteAll g cs).cols = g.cols := by
  induction cs generalizing g with
  | nil => rfl
  | cons c cs ih => exact (ih (g.setPix c.1 c.2 0)).trans rfl

/-- The bulk deletion zeroes exactly the listed coordinates. -/
theorem deleteAll_pix (cs : List (Nat × Nat)) (g : Grid) (x y : Nat) :
    (deleteAll g cs).pix x y = if (x, y) ∈ cs then 0 else g.pix x y := by
  induction cs generalizing g with
  | nil => simp [deleteAll]
  | cons c cs ih =>
    have h1 : deleteAll g (c :: cs) = deleteAll (g.setPix c.1 c.2 0) cs := rfl
    rw [h1, ih]
    rcases c with ⟨cx, cy⟩
    by_cases hm : (x, y) ∈ cs
    · simp [hm]
    · by_cases hc : x = cx ∧ y = cy
      · simp [hm, Grid.setPix, hc, List.mem_cons, Prod.mk.injEq]
      · simp [hm, Grid.setPix, hc, List.mem_cons, Prod.mk.injEq]

theorem mem_deletionCandidatesFirst (g : Grid) (x y : Nat) :
    (x, y) ∈ deletionCandidatesFirst g ↔
      1 ≤ x ∧ x + 1 < g.rows ∧ 1 ≤ y ∧ y + 1 < g.cols ∧
        isCandidateFirst g x y = true := by
  simp only [deletionCandidatesFirst, List.mem_flatMap, List.mem_filterMap,
    List.mem_range'_1]
  constructor
  · rintro ⟨a, ⟨ha1, ha2⟩, b, ⟨hb1, hb2⟩, hif⟩
    by_cases hc : isCandidateFirst g a b
    · rw [if_pos hc] at hif
      obtain ⟨rfl, rfl⟩ := Prod.mk.injEq .. ▸ Option.some.injEq .. ▸ hif
      exact ⟨ha1, by omega, hb1, by omega, hc⟩
    · rw [if_neg hc] at hif; cases hif
  · rintro ⟨h1, h2, h3, h4, h5⟩
    exact ⟨x, ⟨h1, by omega⟩, y, ⟨h3, by omega⟩, by rw [if_pos h5]⟩

theorem mem_deletionCandidatesSecond (g : Grid) (x y : Nat) :
    (x, y) ∈ deletionCandidatesSecond g ↔
      1 ≤ x ∧ x + 1 < g.rows ∧ 1 ≤ y ∧ y + 1 < g.cols ∧
        isCandidateSecond g x y = true := by
  simp only [deletionCandidatesSecond, List.mem_flatMap, List.mem_filterMap,
    List.mem_range'_1]
  constructor
  · rintro ⟨a, ⟨ha1, ha2⟩, b, ⟨hb1, hb2⟩, hif⟩
    by_cases hc : isCandidateSecond g a b
    · rw [if_pos hc] at hif
      obtain ⟨rfl, rfl⟩ := Prod.mk.injEq .. ▸ Option.some.injEq .. ▸ hif
      exact ⟨ha1, by omega, hb1, by omega, hc⟩
    · rw [if_neg hc] at hif; cases hif
  · rintro ⟨h1, h2, h3, h4, h5⟩
    exact ⟨x, ⟨h1, by omega⟩, y, ⟨h3, by omega⟩, by rw [if_pos h5]⟩

theorem isCandidateFirst_iff (g : Grid) (x y : Nat) :
    isCandidateFirst g x y = true ↔
      g.pix x y = 1 ∧ 2 ≤ (neighbors x y g).sum ∧ (neighbors x y g).sum ≤ 6 ∧
      transitions (neighbors x y g) = 1 ∧
      g.pix (x-1) y * g.pix x (y+1) * g.pix (x+1) y = 0 ∧
      g.pix x (y+1) * g.pix (x+1) y * g.pix x (y-1) = 0 := by
  simp [isCandidateFirst, Bool.and_eq_true, decide_eq_true_eq, beq_iff_eq,
    and_assoc]

theorem isCandidateSecond_iff (g : Grid) (x y : Nat) :
    isCandidateSecond g x y = true ↔
      g.pix x y = 1 ∧ 2 ≤ (neighbors x y g).sum ∧ (neighbors x y g).sum ≤ 6 ∧
      transitions (neighbors x y g) = 1 ∧
      g.pix (x-1) y * g.pix x (y+1) * g.pix x (y-1) = 0 ∧
      g.pix (x-1) y * g.pix (x+1) y * g.pix x (y-1) = 0 := by
  simp [isCandidateSecond, Bool.and_eq_true, decide_eq_true_eq, beq_iff_eq,
    and_assoc]

/-- On a list of 0/1 values the sum equals the number of ones, so the
source's `sum(P)` computes the neighbour count `B(p)`. -/
theorem sum_eq_count_one (l : List Nat) (h : ∀ v ∈ l, v = 0 ∨ v = 1) :
    l.sum = l.count 1 := by
  induction l with
  | nil => simp
  | cons v vs ih =>
    have hv := h v (List.mem_cons_self ..)
    have ih' := ih fun w hw => h w (List.mem_cons_of_mem _ hw)
    rcases hv with rfl | rfl
    · simp [ih', List.count_cons]
    · simp [ih', List.count_cons]; omega

/-- At an interior pixel of a binary mask all eight neighbour values are
binary. -/
theorem neighbors_binary (g : Grid)
    (hbin : ∀ x, x < g.rows → ∀ y, y < g.cols → g.pix x y = 0 ∨ g.pix x y = 1)
    (x y : Nat) (h1 : 1 ≤ x) (h2 : x + 1 < g.rows) (h3 : 1 ≤ y)
    (h4 : y + 1 < g.cols) : ∀ v ∈ neighbors x y g, v = 0 ∨ v = 1 := by
  intro v hv
  simp only [neighbors, List.mem_cons, List.not_mem_nil, or_false] at hv
  rcases hv with rfl | rfl | rfl | rfl | rfl | rfl | rfl | rfl <;>
    exact hbin _ (by omega) _ (by omega)

/-- C1: on a binary mask, each thinning subiteration first collects every
deletion candidate by scanning the current mask and only then deletes them
all at once, so the resulting pixel value at any coordinate is the original
value unless the coordinate is an interior foreground pixel satisfying the
subiteration's conditions — `2 ≤ B(p) ≤ 6`, `A(p) = 1`, and the vanishing
neighbour products (north·east·south and east·south·west for subiteration
1; north·east·west and north·south·west for subiteration 2) — in which
case it becomes background; border pixels are never candidates. -/
theorem zhang_suen_subiteration_rule (g : Grid)
    (hbin : ∀ x, x < g.rows → ∀ y, y < g.cols → g.pix x y = 0 ∨ g.pix x y = 1)
    (x y : Nat) :
    ((firstSubiteration g).pix x y =
      if 1 ≤ x ∧ x + 1 < g.rows ∧ 1 ≤ y ∧ y + 1 < g.cols ∧ g.pix x y = 1 ∧
         2 ≤ (neighbors x y g).count 1 ∧ (neighbors x y g).count 1 ≤ 6 ∧
         transitions (neighbors x y g) = 1 ∧
         g.pix (x-1) y * g.pix x (y+1) * g.pix (x+1) y = 0 ∧
         g.pix x (y+1) * g.pix (x+1) y * g.pix x (y-1) = 0
      then 0 else g.pix x y) ∧
    ((secondSubiteration g).pix x y =
      if 1 ≤ x ∧ x + 1 < g.rows ∧ 1 ≤ y ∧ y + 1 < g.cols ∧ g.pix x y = 1 ∧
         2 ≤ (neighbors x y g).count 1 ∧ (neighbors x y g).count 1 ≤ 6 ∧
         transitions (neighbors x y g) = 1 ∧
         g.pix (x-1) y * g.pix x (y+1) * g.pix x (y-1) = 0 ∧
         g.pix (x-1) y * g.pix (x+1) y * g.pix x (y-1) = 0
      then 0 else g.pix x y) := by
  constructor
  · rw [show firstSubiteration g = deleteAll g (deletionCandidatesFirst g) from rfl,
      deleteAll_pix]
    apply if_congr ?_ rfl rfl
    rw [mem_deletionCandidatesFirst, isCandidateFirst_iff]
    constructor
    · rintro ⟨h1, h2, h3, h4, hp, hs1, hs2, ht, hq1, hq2⟩
      have hsc := sum_eq_count_one _ (neighbors_binary g hbin x y h1 h2 h3 h4)
      rw [hsc] at hs1 hs2
      exact ⟨h1, h2, h3, h4, hp, hs1, hs2, ht, hq1, hq2⟩
    · rintro ⟨h1, h2, h3, h4, hp, hs1, hs2, ht, hq1, hq2⟩
      have hsc := sum_eq_count_one _ (neighbors_binary g hbin x y h1 h2 h3 h4)
      rw [← hsc] at hs1 hs2
      exact ⟨h1, h2, h3, h4, hp, hs1, hs2, ht, hq1, hq2⟩
  · rw [show secondSubiteration g = deleteAll g (deletionCandidatesSecond g) from rfl,
      deleteAll_pix]
    apply if_congr ?_ rfl rfl
    rw [mem_deletionCandidatesSecond, isCandidateSecond_iff]
    constructor
    · rintro ⟨h1, h2, h3, h4, hp, hs1, hs2, ht, hq1, hq2⟩
      have hsc := sum_eq_count_one _ (neighbors_binary g hbin x y h1 h2 h3 h4)
      rw [hsc] at hs1 hs2
      exact ⟨h1, h2, h3, h4, hp, hs1, hs2, ht, hq1, hq2⟩
    · rintro ⟨h1, h2, h3, h4, hp, hs1, hs2, ht, hq1, hq2⟩
      have hsc := sum_eq_count_one _ (neighbors_binary g hbin x y h1 h2 h3 h4)
      rw [← hsc] at hs1 hs2
      exact ⟨h1, h2, h3, h4, hp, hs1, hs2, ht, hq1, hq2⟩

/-- Witness for C1 at a concrete 3×3 binary mask and the interior pixel
`(1, 1)` (which the first subiteration deletes). -/
theorem zhang_suen_subiteration_rule_witness :
    (∀ x, x < maskC1.rows → ∀ y, y < maskC1.cols →
        maskC1.pix x y = 0 ∨ maskC1.pix x y = 1) ∧
    ((firstSubiteration maskC1).pix 1 1 =
      if 1 ≤ 1 ∧ 1 + 1 < maskC1.rows ∧ 1 ≤ 1 ∧ 1 + 1 < maskC1.cols ∧
         maskC1.pix 1 1 = 1 ∧
         2 ≤ (neighbors 1 1 maskC1).count 1 ∧ (neighbors 1 1 maskC1).count 1 ≤ 6 ∧
         transitions (neighbors 1 1 maskC1) = 1 ∧
         maskC1.pix 0 1 * maskC1.pix 1 2 * maskC1.pix 2 1 = 0 ∧
         maskC1.pix 1 2 * maskC1.pix 2 1 * maskC1.pix 1 0 = 0
      then 0 else maskC1.pix 1 1) ∧
    ((secondSubiteration maskC1).pix 1 1 =
      if 1 ≤ 1 ∧ 1 + 1 < maskC1.rows ∧ 1 ≤ 1 ∧ 1 + 1 < maskC1.cols ∧
         maskC1.pix 1 1 = 1 ∧
         2 ≤ (neighbors 1 1 maskC1).count 1 ∧ (neighbors 1 1 maskC1).count 1 ≤ 6 ∧
         transitions (neighbors 1 1 maskC1) = 1 ∧
         maskC1.pix 0 1 * maskC1.pix 1 2 * maskC1.pix 1 0 = 0 ∧
         maskC1.pix 0 1 * maskC1.pix 2 1 * maskC1.pix 1 0 = 0
      then 0 else maskC1.pix 1 1) :=
  ⟨by decide, zhang_suen_subiteration_rule maskC1 (by decide) 1 1⟩

theorem firstSubiteration_rows (g : Grid) : (firstSubiteration g).rows = g.rows :=
  deleteAll_rows _ g

theorem firstSubiteration_cols (g : Grid) : (firstSubiteration g).cols = g.cols :=
  deleteAll_cols _ g

theorem onePass_rows (g : Grid) : (onePass g).rows = g.rows :=
  (deleteAll_rows _ _).trans (firstSubiteration_rows g)

theorem onePass_cols (g : Grid) : (onePass g).cols = g.cols :=
  (deleteAll_cols _ _).trans (firstSubiteration_cols g)

/-- A subiteration either zeroes a pixel or leaves it unchanged. -/
theorem firstSubiteration_pix_cases (g : Grid) (x y : Nat) :
    (firstSubiteration g).pix x y = 0 ∨ (firstSubiteration g).pix x y = g.pix x y := by
  rw [show firstSubiteration g = deleteAll g (deletionCandidatesFirst g) from rfl,
    deleteAll_pix]
  by_cases h : (x, y) ∈ deletionCandidatesFirst g <;> simp [h]

theorem secondSubiteration_pix_cases (g : Grid) (x y : Nat) :
    (secondSubiteration g).pix x y = 0 ∨ (secondSubiteration g).pix x y = g.pix x y := by
  rw [show secondSubiteration g = deleteAll g (deletionCandidatesSecond g) from rfl,
    deleteAll_pix]
  by_cases h : (x, y) ∈ deletionCandidatesSecond g <;> simp [h]

/-- A pixel a subiteration changes was a foreground 1 and becomes 0. -/
theorem firstSubiteration_changed (g : Grid) (x y : Nat)
    (h : (firstSubiteration g).pix x y ≠ g.pix x y) :
    (firstSubiteration g).pix x y = 0 ∧ g.pix x y = 1 := by
  rw [show firstSubiteration g = deleteAll g (deletionCandidatesFirst g) from rfl,
    deleteAll_pix] at h ⊢
  by_cases hm : (x, y) ∈ deletionCandidatesFirst g
  · have hp := ((isCandidateFirst_iff g x y).1
      ((mem_deletionCandidatesFirst g x y).1 hm).2.2.2.2).1
    simp [hm, hp]
  · simp [hm] at h

theorem secondSubiteration_changed (g : Grid) (x y : Nat)
    (h : (secondSubiteration g).pix x y ≠ g.pix x y) :
    (secondSubiteration g).pix x y = 0 ∧ g.pix x y = 1 := by
  rw [show secondSubiteration g = deleteAll g (deletionCandidatesSecond g) from rfl,
    deleteAll_pix] at h ⊢
  by_cases hm : (x, y) ∈ deletionCandidatesSecond g
  · have hp := ((isCandidateSecond_iff g x y).1
      ((mem_deletionCandidatesSecond g x y).1 hm).2.2.2.2).1
    simp [hm, hp]
  · simp [hm] at h

/-- A full pass either zeroes a pixel or leaves it unchanged (deletions
only, never additions). -/
theorem onePass_pix_cases (g : Grid) (x y : Nat) :
    (onePass g).pix x y = 0 ∨ (onePass g).pix x y = g.pix x y := by
  have h2 := secondSubiteration_pix_cases (firstSubiteration g) x y
  have h1 := firstSubiteration_pix_cases g x y
  unfold onePass
  rcases h2 with h2 | h2
  · exact Or.inl h2
  · rw [h2]; exact h1

/-- A pixel a full pass changes was foreground and becomes 0. -/
theorem onePass_changed (g : Grid) (x y : Nat)
    (h : (onePass g).pix x y ≠ g.pix x y) :
    (onePass g).pix x y = 0 ∧ g.pix x y ≠ 0 := by
  unfold onePass at h ⊢
  by_cases hmid : (firstSubiteration g).pix x y = g.pix x y
  · have hne : (secondSubiteration (firstSubiteration g)).pix x y ≠
        (firstSubiteration g).pix x y := by rw [hmid]; exact h
    have hch := secondSubiteration_changed _ x y hne
    refine ⟨hch.1, ?_⟩
    rw [← hmid, hch.2]; omega
  · have h1 := firstSubiteration_changed g x y hmid
    rcases secondSubiteration_pix_cases (firstSubiteration g) x y with h2 | h2
    · exact ⟨h2, by rw [h1.2]; omega⟩
    · rw [h2, h1.1]
      exact ⟨rfl, by rw [h1.2]; omega⟩

/-- A full pass never increases the foreground pixel count. -/
theorem fgCount_onePass_le (g : Grid) : fgCount (onePass g) ≤ fgCount g := by
  unfold fgCount
  rw [onePass_rows, onePass_cols]
  apply Finset.sum_le_sum
  intro p _
  rcases onePass_pix_cases g p.1 p.2 with h | h
  · simp [h]
  · rw [h]

/-- A pass that changes the image strictly decreases the foreground count. -/
theorem fgCount_onePass_lt (g : Grid) (h : ¬ arrayEqual (onePass g) g) :
    fgCount (onePass g) < fgCount g := by
  have hr := onePass_rows g
  have hc := onePass_cols g
  unfold arrayEqual at h
  push_neg at h
  obtain ⟨x, hx, y, hy, hne⟩ := h hr hc
  have hch := onePass_changed g x y hne
  unfold fgCount
  rw [hr, hc]
  apply Finset.sum_lt_sum
  · intro p _
    rcases onePass_pix_cases g p.1 p.2 with hp | hp
    · simp [hp]
    · rw [hp]
  · refine ⟨(x, y), ?_, ?_⟩
    · rw [Finset.mem_product]
      exact ⟨Finset.mem_range.2 (by rw [← hr]; exact hx),
        Finset.mem_range.2 (by rw [← hc]; exact hy)⟩
    · simp [hch.1, hch.2]

/-- With fuel exceeding the current foreground count, the thinning loop
always reaches its stopping test. -/
theorem thinLoop_isSome_of_lt :
    ∀ fuel (g : Grid), fgCount g < fuel → (thinLoop fuel g g).isSome := by
  intro fuel
  induction fuel with
  | zero => intro g h; omega
  | succ f ih =>
    intro g h
    have hdef : thinLoop (f + 1) g g =
        if arrayEqual (onePass g) g then some (onePass g)
        else thinLoop f (onePass g) (onePass g) := rfl
    rw [hdef]
    by_cases he : arrayEqual (onePass g) g
    · simp [he]
    · rw [if_neg he]
      apply ih
      have := fgCount_onePass_lt g he
      omega

/-- The fuel chosen in `morphologicalThinning` always suffices: the
`while True` loop of the source terminates. -/
theorem thinLoop_terminates (g : Grid) :
    (thinLoop (fgCount g + 2) (zerosLike g) g).isSome := by
  have hdef : thinLoop (fgCount g + 2) (zerosLike g) g =
      if arrayEqual (onePass g) (zerosLike g) then some (onePass g)
      else thinLoop (fgCount g + 1) (onePass g) (onePass g) := rfl
  rw [hdef]
  by_cases he : arrayEqual (onePass g) (zerosLike g)
  · simp [he]
  · rw [if_neg he]
    apply thinLoop_isSome_of_lt
    have := fgCount_onePass_le g
    omega

/-- An all-background image (on its domain) is a fixed point of the pass. -/
theorem onePass_fixed_of_fgCount_zero (h : Grid) (hz : fgCount h = 0) :
    arrayEqual (onePass h) h := by
  have hzero : ∀ x, x < h.rows → ∀ y, y < h.cols → h.pix x y = 0 := by
    intro x hx y hy
    have := (Finset.sum_eq_zero_iff.1 hz) (x, y)
      (Finset.mem_product.2 ⟨Finset.mem_range.2 hx, Finset.mem_range.2 hy⟩)
    by_contra hne
    simp [hne] at this
  refine ⟨onePass_rows h, onePass_cols h, ?_⟩
  intro x hx y hy
  rcases onePass_pix_cases h x y with hp | hp
  · rw [hp, hzero x (by rw [← onePass_rows h]; exact hx)
      y (by rw [← onePass_cols h]; exact hy)]
  · exact hp

/-- A pass that deletes nothing occurs within `fgCount g` passes. -/
theorem exists_fixed_pass (g : Grid) :
    ∃ k ≤ fgCount g, arrayEqual (onePass (onePass^[k] g)) (onePass^[k] g) := by
  have aux : ∀ j, (∃ k ≤ j, arrayEqual (onePass (onePass^[k] g)) (onePass^[k] g)) ∨
      fgCount (onePass^[j] g) + j ≤ fgCount g := by
    intro j
    induction j with
    | zero => right; simp
    | succ n ih =>
      rcases ih with ⟨k, hk, hfix⟩ | hcnt
      · exact Or.inl ⟨k, by omega, hfix⟩
      · by_cases hfx : arrayEqual (onePass (onePass^[n] g)) (onePass^[n] g)
        · exact Or.inl ⟨n, by omega, hfx⟩
        · right
          have hlt := fgCount_onePass_lt (onePass^[n] g) hfx
          rw [Function.iterate_succ_apply']
          omega
  rcases aux (fgCount g) with ⟨k, hk, hfix⟩ | hcnt
  · exact ⟨k, hk, hfix⟩
  · exact ⟨fgCount g, le_refl _,
      onePass_fixed_of_fgCount_zero _ (by omega)⟩

/-- C2: each full thinning pass only removes foreground pixels (a pixel is
either zeroed or unchanged), so the foreground count is non-increasing
pass-over-pass; a pass with zero deletions is reached within `fgCount g`
passes, and the source's `while True` loop (here `thinLoop`, with the fuel
used by `morphologicalThinning`) stops. -/
theorem thinning_terminates (g : Grid) :
    (∀ x y, (onePass g).pix x y = 0 ∨ (onePass g).pix x y = g.pix x y) ∧
    fgCount (onePass g) ≤ fgCount g ∧
    (∃ k ≤ fgCount g, arrayEqual (onePass (onePass^[k] g)) (onePass^[k] g)) ∧
    (thinLoop (fgCount g + 2) (zerosLike g) g).isSome = true :=
  ⟨fun x y => onePass_pix_cases g x y, fgCount_onePass_le g,
    exists_fixed_pass g, thinLoop_terminates g⟩

/-- Witness for C2 at a concrete 3×3 binary mask. -/
theorem thinning_terminates_witness :
    (∀ x y, (onePass maskC1).pix x y = 0 ∨ (onePass maskC1).pix x y = maskC1.pix x y) ∧
    fgCount (onePass maskC1) ≤ fgCount maskC1 ∧
    (∃ k ≤ fgCount maskC1,
      arrayEqual (onePass (onePass^[k] maskC1)) (onePass^[k] maskC1)) ∧
    (thinLoop (fgCount maskC1 + 2) (zerosLike maskC1) maskC1).isSome = true :=
  thinning_terminates maskC1

/-- A successful run of the loop preserves the shape and only ever zeroes
pixels of its input. -/
theorem thinLoop_pix :
    ∀ fuel prev g r, thinLoop fuel prev g = some r →
      r.rows = g.rows ∧ r.cols = g.cols ∧
      ∀ x y, r.pix x y = 0 ∨ r.pix x y = g.pix x y := by
  intro fuel
  induction fuel with
  | zero => intro prev g r h; cases h
  | succ f ih =>
    intro prev g r h
    have hdef : thinLoop (f + 1) prev g =
        if arrayEqual (onePass g) prev then some (onePass g)
        else thinLoop f (onePass g) (onePass g) := rfl
    rw [hdef] at h
    by_cases he : arrayEqual (onePass g) prev
    · rw [if_pos he] at h
      cases h
      exact ⟨onePass_rows g, onePass_cols g, onePass_pix_cases g⟩
    · rw [if_neg he] at h
      obtain ⟨hr, hc, hp⟩ := ih _ _ _ h
      refine ⟨hr.trans (onePass_rows g), hc.trans (onePass_cols g), ?_⟩
      intro x y
      rcases hp x y with h0 | h0
      · exact Or.inl h0
      · rw [h0]; exact onePass_pix_cases g x y

/-- Shape preservation and pixel provenance of `morphological_thinning`:
every output pixel is 0 or the `// 255`-then-`* 255` image of the input
pixel. -/
theorem morphologicalThinning_spec (img : Grid) :
    (morphologicalThinning img).rows = img.rows ∧
    (morphologicalThinning img).cols = img.cols ∧
    ∀ x y, (morphologicalThinning img).pix x y = 0 ∨
      (morphologicalThinning img).pix x y = img.pix x y / 255 * 255 := by
  unfold morphologicalThinning
  have hterm := thinLoop_terminates (img.map fun v => v / 255)
  cases hcase : thinLoop (fgCount (img.map fun v => v / 255) + 2)
      (zerosLike (img.map fun v => v / 255)) (img.map fun v => v / 255) with
  | none => rw [hcase] at hterm; cases hterm
  | some r =>
    obtain ⟨hr, hc, hp⟩ := thinLoop_pix _ _ _ _ hcase
    refine ⟨hr, hc, ?_⟩
    intro x y
    rcases hp x y with h0 | h0
    · exact Or.inl (by show r.pix x y * 255 = 0; rw [h0])
    · exact Or.inr (by show r.pix x y * 255 = img.pix x y / 255 * 255; rw [h0]; rfl)

/-- C10: the skeletonizer divides by 255, so (for 8-bit inputs) a pixel is
treated as foreground only when its value is exactly 255: the output has
the input's shape with every value in {0, 255}, and an input whose pixels
are all strictly below 255 yields an all-background output. -/
theorem thinning_normalization (g : Grid)
    (h255 : ∀ x, x < g.rows → ∀ y, y < g.cols → g.pix x y ≤ 255) :
    (morphologicalThinning g).rows = g.rows ∧
    (morphologicalThinning g).cols = g.cols ∧
    (∀ x, x < g.rows → ∀ y, y < g.cols →
      (morphologicalThinning g).pix x y = 0 ∨
      (morphologicalThinning g).pix x y = 255) ∧
    ((∀ x, x < g.rows → ∀ y, y < g.cols → g.pix x y < 255) →
      ∀ x, x < g.rows → ∀ y, y < g.cols →
        (morphologicalThinning g).pix x y = 0) := by
  obtain ⟨hr, hc, hp⟩ := morphologicalThinning_spec g
  refine ⟨hr, hc, ?_, ?_⟩
  · intro x hx y hy
    rcases hp x y with h | h
    · exact Or.inl h
    · rw [h]
      rcases Nat.lt_or_ge (g.pix x y) 255 with hlt | hge
      · rw [Nat.div_eq_of_lt hlt]; exact Or.inl rfl
      · have h2 : g.pix x y = 255 := le_antisymm (h255 x hx y hy) hge
        rw [h2]; exact Or.inr rfl
  · intro hlt x hx y hy
    rcases hp x y with h | h
    · exact h
    · rw [h, Nat.div_eq_of_lt (hlt x hx y hy)]

/-- Witness for C10 at a concrete 2×2 mask whose pixels are all 128. -/
theorem thinning_normalization_witness :
    (∀ x, x < gray2.rows → ∀ y, y < gray2.cols → gray2.pix x y ≤ 255) ∧
    ((morphologicalThinning gray2).rows = gray2.rows ∧
     (morphologicalThinning gray2).cols = gray2.cols ∧
     (∀ x, x < gray2.rows → ∀ y, y < gray2.cols →
       (morphologicalThinning gray2).pix x y = 0 ∨
       (morphologicalThinning gray2).pix x y = 255) ∧
     ((∀ x, x < gray2.rows → ∀ y, y < gray2.cols → gray2.pix x y < 255) →
       ∀ x, x < gray2.rows → ∀ y, y < gray2.cols →
         (morphologicalThinning gray2).pix x y = 0)) :=
  ⟨by decide, thinning_normalization gray2 (by decide)⟩

/-- C9: on an all-background mask, skeletonization and measurement degrade
gracefully: the skeleton is all-background (same shape) and the measured
length is zero. -/
theorem measure_empty_mask (g : Grid)
    (hz : ∀ x, x < g.rows → ∀ y, y < g.cols → g.pix x y = 0) :
    (measureCell g).2 = 0 ∧
    (measureCell g).1.rows = g.rows ∧ (measureCell g).1.cols = g.cols ∧
    ∀ x, x < g.rows → ∀ y, y < g.cols → (measureCell g).1.pix x y = 0 := by
  obtain ⟨hr, hc, hp⟩ := morphologicalThinning_spec g
  have hzero : ∀ x, x < g.rows → ∀ y, y < g.cols →
      (morphologicalThinning g).pix x y = 0 := by
    intro x hx y hy
    rcases hp x y with h | h
    · exact h
    · rw [h, hz x hx y hy]
  have hfg : fgCount (morphologicalThinning g) = 0 := by
    unfold fgCount
    apply Finset.sum_eq_zero
    intro p hmem
    rw [Finset.mem_product, Finset.mem_range, Finset.mem_range] at hmem
    rw [hzero p.1 (hr ▸ hmem.1) p.2 (hc ▸ hmem.2)]
    simp
  refine ⟨?_, hr, hc, hzero⟩
  show (fgCount (morphologicalThinning g) : ℚ) / (3.06 : ℚ) = 0
  rw [hfg]
  norm_num

/-- Witness for C9 at a concrete 2×2 all-background mask. -/
theorem measure_empty_mask_witness :
    (∀ x, x < zeros2.rows → ∀ y, y < zeros2.cols → zeros2.pix x y = 0) ∧
    ((measureCell zeros2).2 = 0 ∧
     (measureCell zeros2).1.rows = zeros2.rows ∧
     (measureCell zeros2).1.cols = zeros2.cols ∧
     ∀ x, x < zeros2.rows → ∀ y, y < zeros2.cols →
       (measureCell zeros2).1.pix x y = 0) :=
  ⟨by decide, measure_empty_mask zeros2 (by decide)⟩

/-- Equal arrays have equal foreground counts. -/
theorem fgCount_congr (a b : Grid) (h : arrayEqual a b) : fgCount a = fgCount b := by
  obtain ⟨hr, hc, hp⟩ := h
  unfold fgCount
  rw [hr, hc]
  apply Finset.sum_congr rfl
  intro p hmem
  rw [Finset.mem_product, Finset.mem_range, Finset.mem_range] at hmem
  rw [hp p.1 (hr ▸ hmem.1) p.2 (hc ▸ hmem.2)]

/-- C4 (amended): `measure_cell` has no calibration parameter — the
calibration factor is the hard-coded positive constant 3.06 — and on an
input that is already a skeleton (a fixed point of thinning) it returns
that skeleton together with `foreground count / 3.06`, purely and
deterministically; no non-positive calibration can arise and no rejection
logic exists. -/
theorem measure_fixed_calibration (mask : Grid)
    (hfix : arrayEqual (morphologicalThinning mask) mask) :
    (measureCell mask).1 = morphologicalThinning mask ∧
    (measureCell mask).2 = (fgCount mask : ℚ) / (3.06 : ℚ) ∧
    (0 : ℚ) < 3.06 := by
  refine ⟨rfl, ?_, by norm_num⟩
  show (fgCount (morphologicalThinning mask) : ℚ) / (3.06 : ℚ) = _
  rw [fgCount_congr _ _ hfix]

/-- Witness for C4's amended statement at a concrete one-pixel skeleton. -/
theorem measure_fixed_calibration_witness :
    arrayEqual (morphologicalThinning skel3) skel3 ∧
    ((measureCell skel3).1 = morphologicalThinning skel3 ∧
     (measureCell skel3).2 = (fgCount skel3 : ℚ) / (3.06 : ℚ) ∧
     (0 : ℚ) < 3.06) :=
  ⟨by decide, measure_fixed_calibration skel3 (by decide)⟩

/-- C4 counterexample: the specified `measure(skeleton, c) = foreground
count / c` fails on the code — `measure_cell` accepts no calibration
factor and always divides by 3.06, so at the one-pixel skeleton and
calibration 1 the specified value (1) differs from the computed one
(50/153). -/
theorem measure_calibration_counterexample :
    (measureCell skel3).2 ≠ measureSpec skel3 1 := by
  show (fgCount (morphologicalThinning skel3) : ℚ) / (3.06 : ℚ) ≠
    (fgCount skel3 : ℚ) / 1
  rw [show fgCount (morphologicalThinning skel3) = 1 from by decide,
    show fgCount skel3 = 1 from by decide]
  norm_num

/-- C3: growing from an in-bounds seed whose binarized source pixel is not
foreground is a no-op: `trace_cell` reports the seed-not-on-a-cell
condition (the flag), returns an all-zero region, and the accumulated mask
is unchanged by `np.maximum`. -/
theorem grow_background_seed_noop (source acc : Grid) (p : Nat × Nat)
    (hp1 : p.1 < source.rows) (hp2 : p.2 < source.cols)
    (hbg : (binarize source).pix p.1 p.2 ≠ 255)
    (hr : acc.rows = source.rows) (hc : acc.cols = source.cols) :
    (traceCell source p).2 = true ∧
    (∀ x y, (traceCell source p).1.pix x y = 0) ∧
    arrayEqual (growMask source acc p) acc := by
  have htc : traceCell source p = (zerosLike (binarize source), true) := by
    unfold traceCell
    rw [if_pos hbg]
  refine ⟨by rw [htc], by intro x y; rw [htc]; rfl, ?_⟩
  refine ⟨rfl, rfl, ?_⟩
  intro x hx y hy
  show max (acc.pix x y) ((traceCell source p).1.pix x y) = acc.pix x y
  rw [htc]
  show max (acc.pix x y) 0 = acc.pix x y
  exact Nat.max_zero _

/-- Witness for C3: a 1×1 all-background source, seed `(0, 0)`. -/
theorem grow_background_seed_noop_witness :
    ((0, 0) : Nat × Nat).1 < srcBg.rows ∧ ((0, 0) : Nat × Nat).2 < srcBg.cols ∧
    (binarize srcBg).pix 0 0 ≠ 255 ∧
    ((traceCell srcBg (0, 0)).2 = true ∧
     (∀ x y, (traceCell srcBg (0, 0)).1.pix x y = 0) ∧
     arrayEqual (growMask srcBg (zerosLike srcBg) (0, 0)) (zerosLike srcBg)) :=
  ⟨by decide, by decide, by decide,
    grow_background_seed_noop srcBg (zerosLike srcBg) (0, 0)
      (by decide) (by decide) (by decide) rfl rfl⟩

/-- C6: the erase action clears exactly the pixels within Euclidean
distance `radius` of the clicked point (regardless of their prior value)
and leaves every other pixel and the shape unchanged; it is total. The
OpenCV filled-circle call is modelled as the exact Euclidean disk. -/
theorem erase_disk_exact (acc : Grid) (p : Nat × Nat) (r : Nat)
    (hp1 : p.1 < acc.rows) (hp2 : p.2 < acc.cols) (hr : 1 ≤ r) :
    (eraseDisk acc p r).rows = acc.rows ∧
    (eraseDisk acc p r).cols = acc.cols ∧
    (∀ x y : Nat, ((x : ℤ) - p.1) ^ 2 + ((y : ℤ) - p.2) ^ 2 ≤ (r : ℤ) ^ 2 →
      (eraseDisk acc p r).pix x y = 0) ∧
    (∀ x y : Nat, ¬ (((x : ℤ) - p.1) ^ 2 + ((y : ℤ) - p.2) ^ 2 ≤ (r : ℤ) ^ 2) →
      (eraseDisk acc p r).pix x y = acc.pix x y) := by
  refine ⟨rfl, rfl, ?_, ?_⟩
  · intro x y h
    show (if _ then 0 else acc.pix x y) = 0
    rw [if_pos h]
  · intro x y h
    show (if _ then 0 else acc.pix x y) = acc.pix x y
    rw [if_neg h]

/-- Witness for C6: erasing with radius 1 at the centre of a fully
foreground 3×3 mask. -/
theorem erase_disk_exact_witness :
    ((1, 1) : Nat × Nat).1 < accFull.rows ∧ ((1, 1) : Nat × Nat).2 < accFull.cols ∧
    1 ≤ 1 ∧
    ((eraseDisk accFull (1, 1) 1).rows = accFull.rows ∧
     (eraseDisk accFull (1, 1) 1).cols = accFull.cols ∧
     (∀ x y : Nat, ((x : ℤ) - 1) ^ 2 + ((y : ℤ) - 1) ^ 2 ≤ (1 : ℤ) ^ 2 →
       (eraseDisk accFull (1, 1) 1).pix x y = 0) ∧
     (∀ x y : Nat, ¬ (((x : ℤ) - 1) ^ 2 + ((y : ℤ) - 1) ^ 2 ≤ (1 : ℤ) ^ 2) →
       (eraseDisk accFull (1, 1) 1).pix x y = accFull.pix x y)) :=
  ⟨by decide, by decide, by decide,
    erase_disk_exact accFull (1, 1) 1 (by decide) (by decide) (by decide)⟩

/-- The candidate-neighbour list contains exactly the 4-adjacent
coordinates. -/
theorem mem_nbrCoords (p q : Nat × Nat) : q ∈ nbrCoords p ↔ fourAdj p q := by
  obtain ⟨p1, p2⟩ := p
  obtain ⟨q1, q2⟩ := q
  unfold nbrCoords fourAdj
  split_ifs with h1 h2 h2 <;>
    simp only [List.mem_append, List.mem_cons, List.not_mem_nil, or_false,
      List.append_nil, Prod.mk.injEq] <;> omega

/-- The computed neighbour set realises exactly the flood-fill step
relation. -/
theorem mem_fgNbrs (b : Grid) (p q : Nat × Nat) :
    q ∈ fgNbrs b p ↔ fgStep b p q := by
  unfold fgNbrs fgStep
  rw [List.mem_toFinset, List.mem_filter]
  simp only [Bool.and_eq_true, decide_eq_true_eq, beq_iff_eq, mem_nbrCoords]
  tauto

theorem subset_expand (b : Grid) (s : Finset (Nat × Nat)) : s ⊆ expand b s :=
  Finset.subset_union_left

theorem subset_iterate_expand (b : Grid) (s : Finset (Nat × Nat)) :
    ∀ n, s ⊆ (expand b)^[n] s := by
  intro n
  induction n with
  | zero => simp
  | succ n ih =>
    rw [Function.iterate_succ_apply']
    exact ih.trans (subset_expand b _)

/-- Everything the breadth-first expansion collects is reachable. -/
theorem reach_of_mem_iterate (b : Grid) (s : Nat × Nat) :
    ∀ n q, q ∈ (expand b)^[n] {s} → reach b s q := by
  intro n
  induction n with
  | zero =>
    intro q hq
    rw [Function.iterate_zero_apply, Finset.mem_singleton] at hq
    subst hq
    exact Relation.ReflTransGen.refl
  | succ n ih =>
    intro q hq
    rw [Function.iterate_succ_apply'] at hq
    unfold expand at hq
    rw [Finset.mem_union] at hq
    rcases hq with hq | hq
    · exact ih q hq
    · rw [Finset.mem_biUnion] at hq
      obtain ⟨r, hr, hqr⟩ := hq
      exact Relation.ReflTransGen.tail (ih r hr) ((mem_fgNbrs b r q).1 hqr)

theorem iterate_expand_subset_domain (b : Grid) (p : Nat × Nat)
    (hp : p ∈ Finset.range b.rows ×ˢ Finset.range b.cols) :
    ∀ n, (expand b)^[n] {p} ⊆ Finset.range b.rows ×ˢ Finset.range b.cols := by
  intro n
  induction n with
  | zero =>
    rw [Function.iterate_zero_apply]
    exact Finset.singleton_subset_iff.2 hp
  | succ n ih =>
    rw [Function.iterate_succ_apply']
    unfold expand
    apply Finset.union_subset ih
    intro q hq
    rw [Finset.mem_biUnion] at hq
    obtain ⟨r, _, hqr⟩ := hq
    have hst := (mem_fgNbrs b r q).1 hqr
    exact Finset.mem_product.2
      ⟨Finset.mem_range.2 hst.2.1, Finset.mem_range.2 hst.2.2.1⟩

/-- After `rows * cols` rounds the expansion has saturated: `floodSet` is a
fixed point of one more expansion. -/
theorem expand_floodSet (b : Grid) (p : Nat × Nat)
    (hp : p.1 < b.rows ∧ p.2 < b.cols) :
    expand b (floodSet b p) = floodSet b p := by
  have hdom := iterate_expand_subset_domain b p
    (Finset.mem_product.2 ⟨Finset.mem_range.2 hp.1, Finset.mem_range.2 hp.2⟩)
  have aux : ∀ k,
      (∃ j ≤ k, expand b ((expand b)^[j] {p}) = (expand b)^[j] {p}) ∨
      k + 1 ≤ ((expand b)^[k] {p}).card := by
    intro k
    induction k with
    | zero => right; simp
    | succ n ih =>
      rcases ih with ⟨j, hj, hfix⟩ | hcard
      · exact Or.inl ⟨j, by omega, hfix⟩
      · by_cases hfx : expand b ((expand b)^[n] {p}) = (expand b)^[n] {p}
        · exact Or.inl ⟨n, by omega, hfx⟩
        · right
          have hss : (expand b)^[n] {p} ⊂ (expand b)^[n + 1] {p} := by
            rw [Function.iterate_succ_apply']
            exact (subset_expand b _).ssubset_of_ne (Ne.symm hfx)
          have := Finset.card_lt_card hss
          omega
  rcases aux (b.rows * b.cols) with ⟨j, hj, hfix⟩ | hcard
  · have hiter : (expand b)^[b.rows * b.cols] {p} = (expand b)^[j] {p} := by
      have hsplit : b.rows * b.cols = (b.rows * b.cols - j) + j := by omega
      rw [hsplit, Function.iterate_add_apply]
      exact Function.iterate_fixed hfix (b.rows * b.cols - j)
    show expand b ((expand b)^[b.rows * b.cols] {p}) =
      (expand b)^[b.rows * b.cols] {p}
    rw [hiter]
    exact hfix
  · exfalso
    have hle : ((expand b)^[b.rows * b.cols] {p}).card ≤ b.rows * b.cols := by
      have := Finset.card_le_card (hdom (b.rows * b.cols))
      simpa [Finset.card_product, Finset.card_range] using this
    omega

/-- Every reachable pixel is collected by the flood fill. -/
theorem mem_floodSet_of_reach (b : Grid) (p : Nat × Nat)
    (hp : p.1 < b.rows ∧ p.2 < b.cols) :
    ∀ q, reach b p q → q ∈ floodSet b p := by
  intro q hq
  induction hq with
  | refl =>
    exact subset_iterate_expand b {p} _ (Finset.mem_singleton_self p)
  | @tail r c _ hrc ih =>
    have hmem : c ∈ fgNbrs b r := (mem_fgNbrs b r c).2 hrc
    have hexp : c ∈ expand b (floodSet b p) :=
      Finset.mem_union_right _ (Finset.mem_biUnion.2 ⟨r, ih, hmem⟩)
    rwa [expand_floodSet b p hp] at hexp

/-- The flood fill computes exactly the 4-connected reachable set. -/
theorem mem_floodSet_iff (b : Grid) (p : Nat × Nat)
    (hp : p.1 < b.rows ∧ p.2 < b.cols) (q : Nat × Nat) :
    q ∈ floodSet b p ↔ reach b p q :=
  ⟨reach_of_mem_iterate b p _ q, mem_floodSet_of_reach b p hp q⟩

theorem fourAdj_symm {p q : Nat × Nat} (h : fourAdj p q) : fourAdj q p := by
  obtain ⟨p1, p2⟩ := p
  obtain ⟨q1, q2⟩ := q
  unfold fourAdj at h ⊢
  omega

/-- Reachable pixels are in bounds and foreground (given a foreground
in-bounds seed). -/
theorem reach_props (b : Grid) (s q : Nat × Nat)
    (hs : s.1 < b.rows ∧ s.2 < b.cols ∧ b.pix s.1 s.2 = 255)
    (h : reach b s q) :
    q.1 < b.rows ∧ q.2 < b.cols ∧ b.pix q.1 q.2 = 255 := by
  induction h with
  | refl => exact hs
  | tail _ hstep _ => exact ⟨hstep.2.1, hstep.2.2.1, hstep.2.2.2⟩

/-- Reachability between foreground pixels is symmetric (4-adjacency is
symmetric and both endpoints of every step are foreground). -/
theorem reach_symm (b : Grid) (s q : Nat × Nat)
    (hs : s.1 < b.rows ∧ s.2 < b.cols ∧ b.pix s.1 s.2 = 255)
    (h : reach b s q) : reach b q s := by
  induction h with
  | refl => exact Relation.ReflTransGen.refl
  | @tail r c hsr hrc ih =>
    have hr := reach_props b s r hs hsr
    exact Relation.ReflTransGen.head
      ⟨fourAdj_symm hrc.1, hr.1, hr.2.1, hr.2.2⟩ ih

/-- C5: the per-seed region is the 4-connected foreground component of the
seed, accumulation is a pixel-wise maximum (logical OR on 0/255 masks),
and growing again from a second seed of the same component changes
nothing. -/
theorem grow_idempotent_same_component (m acc : Grid) (s1 s2 : Nat × Nat)
    (h1r : s1.1 < m.rows) (h1c : s1.2 < m.cols)
    (hfg : (binarize m).pix s1.1 s1.2 = 255)
    (hcomp : reach (binarize m) s1 s2)
    (har : acc.rows = m.rows) (hac : acc.cols = m.cols) :
    arrayEqual (growMask m (growMask m acc s1) s2) (growMask m acc s1) ∧
    (∀ x y, (traceCell m s1).1.pix x y = 255 ↔ reach (binarize m) s1 (x, y)) := by
  have hs1 : s1.1 < (binarize m).rows ∧ s1.2 < (binarize m).cols ∧
      (binarize m).pix s1.1 s1.2 = 255 := ⟨h1r, h1c, hfg⟩
  have hs2 := reach_props (binarize m) s1 s2 hs1 hcomp
  have htr1 : traceCell m s1 = (regionFromSeed (binarize m) s1, false) := by
    unfold traceCell
    rw [if_neg (by rw [hfg]; exact fun hne => hne rfl)]
  have htr2 : traceCell m s2 = (regionFromSeed (binarize m) s2, false) := by
    unfold traceCell
    rw [if_neg (by rw [hs2.2.2]; exact fun hne => hne rfl)]
  have hreach12 : ∀ q, reach (binarize m) s2 q ↔ reach (binarize m) s1 q := by
    intro q
    constructor
    · intro h
      exact Relation.ReflTransGen.trans hcomp h
    · intro h
      exact Relation.ReflTransGen.trans
        (reach_symm (binarize m) s1 s2 hs1 hcomp) h
  have hregion : ∀ x y, (regionFromSeed (binarize m) s2).pix x y =
      (regionFromSeed (binarize m) s1).pix x y := by
    intro x y
    show (if (x, y) ∈ floodSet (binarize m) s2 then 255 else 0) =
      (if (x, y) ∈ floodSet (binarize m) s1 then 255 else 0)
    apply if_congr ?_ rfl rfl
    rw [mem_floodSet_iff (binarize m) s2 ⟨hs2.1, hs2.2.1⟩,
      mem_floodSet_iff (binarize m) s1 ⟨hs1.1, hs1.2.1⟩]
    exact hreach12 (x, y)
  constructor
  · refine ⟨rfl, rfl, ?_⟩
    intro x hx y hy
    have hpix2 : (traceCell m s2).1.pix x y =
        (regionFromSeed (binarize m) s1).pix x y := by
      rw [htr2]; exact hregion x y
    have hpix1 : (traceCell m s1).1.pix x y =
        (regionFromSeed (binarize m) s1).pix x y := by
      rw [htr1]
    show max (max (acc.pix x y) ((traceCell m s1).1.pix x y))
      ((traceCell m s2).1.pix x y) =
      max (acc.pix x y) ((traceCell m s1).1.pix x y)
    rw [hpix1, hpix2, max_assoc, max_self]
  · intro x y
    have hpix1 : (traceCell m s1).1.pix x y =
        (if (x, y) ∈ floodSet (binarize m) s1 then 255 else 0) := by
      rw [htr1]; rfl
    rw [hpix1, ← mem_floodSet_iff (binarize m) s1 ⟨hs1.1, hs1.2.1⟩ (x, y)]
    by_cases hmem : (x, y) ∈ floodSet (binarize m) s1
    · simp [hmem]
    · simp [hmem]

/-- Witness for C5: a 1×3 fully-foreground row, grown from both of its end
pixels, which lie in the same 4-connected component. -/
theorem grow_idempotent_same_component_witness :
    ((0, 0) : Nat × Nat).1 < srcRow.rows ∧ ((0, 0) : Nat × Nat).2 < srcRow.cols ∧
    (binarize srcRow).pix 0 0 = 255 ∧
    reach (binarize srcRow) (0, 0) (0, 2) ∧
    (arrayEqual (growMask srcRow (growMask srcRow accRow (0, 0)) (0, 2))
        (growMask srcRow accRow (0, 0)) ∧
     ∀ x y, (traceCell srcRow (0, 0)).1.pix x y = 255 ↔
       reach (binarize srcRow) (0, 0) (x, y)) := by
  have st1 : fgStep (binarize srcRow) (0, 0) (0, 1) :=
    ⟨Or.inl ⟨rfl, Or.inl rfl⟩, by decide, by decide, by decide⟩
  have st2 : fgStep (binarize srcRow) (0, 1) (0, 2) :=
    ⟨Or.inl ⟨rfl, Or.inl rfl⟩, by decide, by decide, by decide⟩
  have hcomp : reach (binarize srcRow) (0, 0) (0, 2) :=
    Relation.ReflTransGen.tail
      (Relation.ReflTransGen.tail Relation.ReflTransGen.refl st1) st2
  exact ⟨by decide, by decide, by decide, hcomp,
    grow_idempotent_same_component srcRow accRow (0, 0) (0, 2)
      (by decide) (by decide) (by decide) hcomp rfl rfl⟩

/-- Every window tap is a pixel value of the image. -/
theorem mem_windowTaps {g : Grid} {k x y v : Nat}
    (h : v ∈ windowTaps g k x y) : ∃ a b, v = g.pix a b := by
  unfold windowTaps at h
  simp only [List.mem_flatMap, List.mem_filterMap] at h
  obtain ⟨i, _, j, _, hif⟩ := h
  split_ifs at hif with hc
  exact ⟨_, _, (Option.some.inj hif).symm⟩

/-- Folding `max` over 0/255 values from a 0/255 seed stays in {0, 255}. -/
theorem foldl_max_binary :
    ∀ l : List Nat, (∀ v ∈ l, v = 0 ∨ v = 255) → ∀ a, a = 0 ∨ a = 255 →
      l.foldl Nat.max a = 0 ∨ l.foldl Nat.max a = 255 := by
  intro l
  induction l with
  | nil => intro _ a ha; exact ha
  | cons v vs ih =>
    intro h a ha
    have hv := h v (List.mem_cons_self ..)
    show vs.foldl Nat.max (Nat.max a v) = 0 ∨ vs.foldl Nat.max (Nat.max a v) = 255
    apply ih fun w hw => h w (List.mem_cons_of_mem _ hw)
    rcases ha with rfl | rfl <;> rcases hv with rfl | rfl <;> decide

/-- Folding `min` over 0/255 values from a 0/255 seed stays in {0, 255}. -/
theorem foldl_min_binary :
    ∀ l : List Nat, (∀ v ∈ l, v = 0 ∨ v = 255) → ∀ a, a = 0 ∨ a = 255 →
      l.foldl Nat.min a = 0 ∨ l.foldl Nat.min a = 255 := by
  intro l
  induction l with
  | nil => intro _ a ha; exact ha
  | cons v vs ih =>
    intro h a ha
    have hv := h v (List.mem_cons_self ..)
    show vs.foldl Nat.min (Nat.min a v) = 0 ∨ vs.foldl Nat.min (Nat.min a v) = 255
    apply ih fun w hw => h w (List.mem_cons_of_mem _ hw)
    rcases ha with rfl | rfl <;> rcases hv with rfl | rfl <;> decide

/-- Morphological closing keeps a 0/255 image 0/255. -/
theorem morphClose_binary (k : Nat) (g : Grid)
    (h : ∀ x y, g.pix x y = 0 ∨ g.pix x y = 255) :
    ∀ x y, (morphClose k g).pix x y = 0 ∨ (morphClose k g).pix x y = 255 := by
  have hdil : ∀ x y, (dilateK k g).pix x y = 0 ∨ (dilateK k g).pix x y = 255 := by
    intro x y
    apply foldl_max_binary _ ?_ 0 (Or.inl rfl)
    intro v hv
    obtain ⟨a, b, rfl⟩ := mem_windowTaps hv
    exact h a b
  intro x y
  apply foldl_min_binary _ ?_ 255 (Or.inr rfl)
  intro v hv
  obtain ⟨a, b, rfl⟩ := mem_windowTaps hv
  exact hdil a b

/-- Iterated closing preserves shape and 0/255 values. -/
theorem iterate_morphClose_spec (k : Nat) :
    ∀ n (g : Grid),
      ((morphClose k)^[n] g).rows = g.rows ∧
      ((morphClose k)^[n] g).cols = g.cols ∧
      ((∀ x y, g.pix x y = 0 ∨ g.pix x y = 255) →
        ∀ x y, ((morphClose k)^[n] g).pix x y = 0 ∨
          ((morphClose k)^[n] g).pix x y = 255) := by
  intro n
  induction n with
  | zero => intro g; exact ⟨rfl, rfl, fun h => h⟩
  | succ n ih =>
    intro g
    rw [Function.iterate_succ_apply]
    obtain ⟨hr, hc, hb⟩ := ih (morphClose k g)
    exact ⟨hr, hc, fun h => hb (morphClose_binary k g h)⟩

/-- The adaptive threshold succeeds exactly under OpenCV's parameter
assertion and then produces a 0/255 image of the same shape. -/
theorem adaptiveThreshold_spec (src : Grid) (blockSize : Nat) (c : ℤ)
    (h1 : blockSize % 2 = 1) (h2 : 1 < blockSize) :
    ∃ t, adaptiveThreshold src 255 blockSize c = some t ∧
      t.rows = src.rows ∧ t.cols = src.cols ∧
      ∀ x y, t.pix x y = 0 ∨ t.pix x y = 255 := by
  unfold adaptiveThreshold
  rw [if_pos ⟨h1, h2⟩]
  refine ⟨_, rfl, rfl, rfl, ?_⟩
  intro x y
  show (if _ then (255 : Nat) else 0) = 0 ∨ (if _ then (255 : Nat) else 0) = 255
  split_ifs
  · exact Or.inr rfl
  · exact Or.inl rfl

/-- C8: for every image and valid configuration (odd `block_size ≥ 3`, odd
`kernel_size ≥ 3`, `iterations ≥ 1`, any signed `c_value`), preprocessing
succeeds and returns a mask of the input's height and width whose pixels
take exactly the two values 0 and 255. -/
theorem preprocess_shape_binary (image : Grid)
    (iterations kernelSize blockSize : Nat) (cValue : ℤ)
    (hb1 : blockSize % 2 = 1) (hb2 : 3 ≤ blockSize)
    (hk1 : kernelSize % 2 = 1) (hk2 : 3 ≤ kernelSize)
    (hi : 1 ≤ iterations) :
    ∃ mask,
      initialPreprocessing image iterations kernelSize blockSize cValue = some mask ∧
      mask.rows = image.rows ∧ mask.cols = image.cols ∧
      ∀ x, x < mask.rows → ∀ y, y < mask.cols →
        mask.pix x y = 0 ∨ mask.pix x y = 255 := by
  obtain ⟨t, ht, htr, htc, htb⟩ := adaptiveThreshold_spec
    (gaussianBlur5 (normalizeMinMax image)) blockSize cValue hb1 (by omega)
  obtain ⟨hir, hic, hib⟩ := iterate_morphClose_spec kernelSize iterations t
  unfold initialPreprocessing
  rw [ht]
  show ∃ mask,
    (if iterations = 0 then none
     else some ((morphClose kernelSize)^[iterations] t)) = some mask ∧
    mask.rows = image.rows ∧ mask.cols = image.cols ∧
    ∀ x, x < mask.rows → ∀ y, y < mask.cols →
      mask.pix x y = 0 ∨ mask.pix x y = 255
  rw [if_neg (show ¬ iterations = 0 by omega)]
  refine ⟨(morphClose kernelSize)^[iterations] t, rfl, ?_, ?_, ?_⟩
  · exact hir.trans htr
  · exact hic.trans htc
  · intro x _ y _
    exact hib htb x y

/-- Witness for C8 at a concrete 2×2 image with `iterations = 1`,
`kernel_size = 3`, `block_size = 3`, `c_value = 0`. -/
theorem preprocess_shape_binary_witness :
    (3 % 2 = 1 ∧ 3 ≤ 3 ∧ 1 ≤ 1) ∧
    ∃ mask, initialPreprocessing imTest 1 3 3 0 = some mask ∧
      mask.rows = imTest.rows ∧ mask.cols = imTest.cols ∧
      ∀ x, x < mask.rows → ∀ y, y < mask.cols →
        mask.pix x y = 0 ∨ mask.pix x y = 255 :=
  ⟨by decide, preprocess_shape_binary imTest 1 3 3 0
    (by decide) (by decide) (by decide) (by decide) (by decide)⟩

/-- C7 (amended): `initial_preprocessing` itself validates nothing — an
even `block_size` makes the underlying adaptive-threshold call fail
(unchecked), a non-positive `iterations` fails on the unassigned `closing`
(unchecked), and an even `kernel_size` is silently used; the only
correction in the repository is the widget slider handler, which bumps an
even `block_size`/`kernel_size` to the next odd value without surfacing
any condition to the caller. -/
theorem preprocess_param_policy :
    (∀ v, v % 2 = 0 → sliderOddCorrect v = v + 1 ∧ sliderOddCorrect v % 2 = 1) ∧
    (∀ (image : Grid) (iterations kernelSize : Nat) (cValue : ℤ)
        (blockSize : Nat), blockSize % 2 = 0 →
      initialPreprocessing image iterations kernelSize blockSize cValue = none) ∧
    (∀ (image : Grid) (kernelSize blockSize : Nat) (cValue : ℤ),
      initialPreprocessing image 0 kernelSize blockSize cValue = none) := by
  refine ⟨?_, ?_, ?_⟩
  · intro v hv
    unfold sliderOddCorrect
    rw [if_pos hv]
    exact ⟨rfl, by omega⟩
  · intro image iterations kernelSize cValue blockSize hb
    unfold initialPreprocessing adaptiveThreshold
    rw [if_neg (show ¬ (blockSize % 2 = 1 ∧ 1 < blockSize) by omega)]
  · intro image kernelSize blockSize cValue
    unfold initialPreprocessing
    cases adaptiveThreshold (gaussianBlur5 (normalizeMinMax image)) 255
        blockSize cValue with
    | none => rfl
    | some t => show (if (0 : Nat) = 0 then none else _) = none; rw [if_pos rfl]

/-- Witness for C7's amended statement: slider correction at the even
value 4, unchecked failure of a direct call with `block_size = 4`, and
unchecked failure with `iterations = 0`. -/
theorem preprocess_param_policy_witness :
    (4 % 2 = 0) ∧ (sliderOddCorrect 4 = 4 + 1 ∧ sliderOddCorrect 4 % 2 = 1) ∧
    initialPreprocessing imTest 5 11 4 (-3) = none ∧
    initialPreprocessing imTest 0 11 5 (-3) = none :=
  ⟨rfl, preprocess_param_policy.1 4 rfl,
    preprocess_param_policy.2.1 imTest 5 11 (-3) 4 rfl,
    preprocess_param_policy.2.2 imTest 11 5 (-3)⟩

/-- C7 counterexample: a direct call to `initial_preprocessing` with the
even `block_size` 4 is neither rejected up front nor corrected to 5 — it
fails (the modelled OpenCV assertion) although the corrected call would
succeed — and the even `kernel_size` 4 is silently used (the call
succeeds, so no rejection or correction of it ever happens). -/
theorem preprocess_param_counterexample :
    (4 % 2 = 0) ∧
    initialPreprocessing imTest 5 11 4 (-3) = none ∧
    (initialPreprocessing imTest 5 11 5 (-3)).isSome = true ∧
    (initialPreprocessing imTest 1 4 5 0).isSome = true := by
  refine ⟨rfl, rfl, ?_, ?_⟩
  · decide
  · decide

end NapariSpermMeasure
